import Mathlib

/-
Verification of the NCHW float Conv2d dispatch kernel
(mace/kernels/arm/conv_2d.cc).

Modelling conventions:
- float buffers are modelled as total functions `ℕ → ℚ` over flat offsets,
  with float arithmetic idealized as exact rational arithmetic;
- the C loop nests are modelled as left folds over `List.range`, with an
  array store modelled by `updateBuf`;
- `index_t` / `int` values are modelled as `ℕ` (all quantities involved are
  non-negative sizes, strides, dilations and pad amounts).
-/

/-- Pointwise store into a flat buffer (`buf[k] = v`). -/
def updateBuf (o : ℕ → ℚ) (k : ℕ) (v : ℚ) : ℕ → ℚ :=
  fun i => if i = k then v else o i

/-- Flat NCHW offset of output element (b, m, h, w), as computed at
conv_2d.cc:44-45. -/
def outOffset (out_channels out_height out_width b m h w : ℕ) : ℕ :=
  ((b * out_channels + m) * out_height + h) * out_width + w

/-- Flat NCHW offset of input element (b, c, ih, iw), as computed at
conv_2d.cc:51-52. -/
def inOffset (in_channels in_height in_width b c ih iw : ℕ) : ℕ :=
  ((b * in_channels + c) * in_height + ih) * in_width + iw

/-- Flat OIHW offset of filter element (m, c, kh, kw), as computed at
conv_2d.cc:53-55. -/
def filterOffset (in_channels filter_height filter_width m c kh kw : ℕ) : ℕ :=
  ((m * in_channels + c) * filter_height + kh) * filter_width + kw

/-- Shape and convolution parameters handed to `Conv2dNCHW`
(conv_2d.cc:23-38). -/
structure ConvParams where
  batch : ℕ
  in_height : ℕ
  in_width : ℕ
  in_channels : ℕ
  out_height : ℕ
  out_width : ℕ
  out_channels : ℕ
  filter_height : ℕ
  filter_width : ℕ
  stride_h : ℕ
  stride_w : ℕ
  dilation_h : ℕ
  dilation_w : ℕ
  deriving DecidableEq

/-- The three inner accumulation loops of `Conv2dNCHW`
(conv_2d.cc:46-59): starting from the current value of
`output[out_offset]`, accumulate input·filter products over
(in_channel c, kernel_row kh, kernel_col kw). -/
def innerAcc (input filter : ℕ → ℚ) (p : ConvParams) (b m h w : ℕ) (acc : ℚ) : ℚ :=
  (List.range p.in_channels).foldl (fun a c =>
    (List.range p.filter_height).foldl (fun a kh =>
      (List.range p.filter_width).foldl (fun a kw =>
        a + input (inOffset p.in_channels p.in_height p.in_width b c
              (h * p.stride_h + kh * p.dilation_h) (w * p.stride_w + kw * p.dilation_w))
          * filter (filterOffset p.in_channels p.filter_height p.filter_width m c kh kw)) a) a) acc

/-- Innermost output loop of `Conv2dNCHW` (conv_2d.cc:43): for each output
column w, store the accumulated value into `output[out_offset]`. -/
def convWLoop (input filter : ℕ → ℚ) (p : ConvParams) (b m h : ℕ) (o : ℕ → ℚ) : ℕ → ℚ :=
  (List.range p.out_width).foldl (fun o w =>
    updateBuf o (outOffset p.out_channels p.out_height p.out_width b m h w)
      (innerAcc input filter p b m h w
        (o (outOffset p.out_channels p.out_height p.out_width b m h w)))) o

/-- Output-row loop of `Conv2dNCHW` (conv_2d.cc:42). -/
def convHLoop (input filter : ℕ → ℚ) (p : ConvParams) (b m : ℕ) (o : ℕ → ℚ) : ℕ → ℚ :=
  (List.range p.out_height).foldl (fun o h => convWLoop input filter p b m h o) o

/-- Output-channel loop of `Conv2dNCHW` (conv_2d.cc:41). -/
def convMLoop (input filter : ℕ → ℚ) (p : ConvParams) (b : ℕ) (o : ℕ → ℚ) : ℕ → ℚ :=
  (List.range p.out_channels).foldl (fun o m => convHLoop input filter p b m o) o

/-- The Generic Direct convolution kernel `Conv2dNCHW` (conv_2d.cc:23-64):
nested loops over batch, out_channel, out_row, out_col accumulating
input·filter products into the output buffer. -/
def Conv2dNCHW (input filter : ℕ → ℚ) (p : ConvParams) (output : ℕ → ℚ) : ℕ → ℚ :=
  (List.range p.batch).foldl (fun o b => convMLoop input filter p b o) output

/-- The five mutually exclusive execution strategies of the dispatcher
(conv_2d.cc:294-393). -/
inductive Strategy
  | winograd
  | neon3x3s1
  | neon3x3s2
  | neon1x1s1
  | generic
  deriving DecidableEq

/-- `use_winograd` (conv_2d.cc:180-182). -/
def use_winograd (is_filter_transformed : Bool)
    (filter_h filter_w stride_h stride_w dilation_h dilation_w
     input_channels channels : ℕ) : Bool :=
  is_filter_transformed || (filter_h == 3 && filter_w == 3
    && stride_h == 1 && stride_w == 1 && dilation_h == 1 && dilation_w == 1
    && decide (8 ≤ input_channels) && decide (8 ≤ channels))

/-- `use_neon_3x3_s1` (conv_2d.cc:183-184). -/
def use_neon_3x3_s1 (filter_h filter_w stride_h stride_w dilation_h dilation_w : ℕ) : Bool :=
  filter_h == 3 && filter_w == 3
    && stride_h == 1 && stride_w == 1 && dilation_h == 1 && dilation_w == 1

/-- `use_neon_3x3_s2` (conv_2d.cc:185-186). -/
def use_neon_3x3_s2 (filter_h filter_w stride_h stride_w dilation_h dilation_w : ℕ) : Bool :=
  filter_h == 3 && filter_w == 3
    && stride_h == 2 && stride_w == 2 && dilation_h == 1 && dilation_w == 1

/-- `use_neon_1x1_s1` (conv_2d.cc:187-188). -/
def use_neon_1x1_s1 (filter_h filter_w stride_h stride_w dilation_h dilation_w : ℕ) : Bool :=
  filter_h == 1 && filter_w == 1
    && stride_h == 1 && stride_w == 1 && dilation_h == 1 && dilation_w == 1

/-- The strategy dispatch chain (conv_2d.cc:294, 337, 350, 363, 374):
first matching predicate wins. -/
def selectStrategy (is_filter_transformed : Bool)
    (filter_h filter_w stride_h stride_w dilation_h dilation_w
     input_channels channels : ℕ) : Strategy :=
  if use_winograd is_filter_transformed filter_h filter_w stride_h stride_w
      dilation_h dilation_w input_channels channels then .winograd
  else if use_neon_3x3_s1 filter_h filter_w stride_h stride_w dilation_h dilation_w then .neon3x3s1
  else if use_neon_3x3_s2 filter_h filter_w stride_h stride_w dilation_h dilation_w then .neon3x3s2
  else if use_neon_1x1_s1 filter_h filter_w stride_h stride_w dilation_h dilation_w then .neon1x1s1
  else .generic

/-- Parameters of the spec's concrete example: input [1,1,5,5], filter
[1,1,3,3], stride (1,1), dilation (1,1), zero padding, output [1,1,3,3]. -/
def convExampleParams : ConvParams :=
  ⟨1, 5, 5, 1, 3, 3, 1, 3, 3, 1, 1, 1, 1⟩

/-- Modelled from the spec: `CalcNCHWOutputSize` (called at conv_2d.cc:130-132
with RoundType::FLOOR; its body is not part of this file's source) resolves one
output spatial extent as floor((in + pad − dilation·(filter − 1) − 1)/stride) + 1
(spec §4.1). -/
def calcOutExtent (inDim pad filterDim dilation stride : ℕ) : ℕ :=
  (inDim + pad - dilation * (filterDim - 1) - 1) / stride + 1

/-- Semantics of the row `memcpy` of the unpack step (conv_2d.cc:426-433):
copy `n` consecutive elements of `src` starting at `srcOff` over `dst`
starting at `dstOff`. -/
def memcpyF (dst : ℕ → ℚ) (dstOff : ℕ) (src : ℕ → ℚ) (srcOff n : ℕ) : ℕ → ℚ :=
  fun i => if dstOff ≤ i ∧ i < dstOff + n then src (srcOff + (i - dstOff)) else dst i

/-- Destination offset of the unpack row copy (conv_2d.cc:427-428). -/
def unpackDstOff (channels height width b c h : ℕ) : ℕ :=
  b * channels * height * width + c * height * width + h * width

/-- Source offset of the unpack row copy (conv_2d.cc:429-432). -/
def unpackSrcOff (channels extra_output_height extra_output_width b c h : ℕ) : ℕ :=
  b * channels * extra_output_height * extra_output_width
    + c * extra_output_height * extra_output_width + h * extra_output_width

/-- Row loop of the unpack step (conv_2d.cc:425-434). -/
def unpackHLoop (padOut : ℕ → ℚ) (channels height width eH eW b c : ℕ)
    (o : ℕ → ℚ) : ℕ → ℚ :=
  (List.range height).foldl (fun o h =>
    memcpyF o (unpackDstOff channels height width b c h) padOut
      (unpackSrcOff channels eH eW b c h) width) o

/-- Channel loop of the unpack step (conv_2d.cc:424). -/
def unpackCLoop (padOut : ℕ → ℚ) (channels height width eH eW b : ℕ)
    (o : ℕ → ℚ) : ℕ → ℚ :=
  (List.range channels).foldl (fun o c =>
    unpackHLoop padOut channels height width eH eW b c o) o

/-- The unpack step (conv_2d.cc:421-437): copy each true-height row of length
true-width from the working (padded) output back into the true output buffer
at matching batch/channel/row offsets. -/
def unpackOutput (padOut : ℕ → ℚ) (batch channels height width eH eW : ℕ)
    (out : ℕ → ℚ) : ℕ → ℚ :=
  (List.range batch).foldl (fun o b =>
    unpackCLoop padOut channels height width eH eW b o) out

/-- Plane loop of the bias step (conv_2d.cc:443-444). -/
def biasILoop (bias_data : ℕ → ℚ) (channels height width b c : ℕ)
    (o : ℕ → ℚ) : ℕ → ℚ :=
  (List.range (height * width)).foldl (fun o i =>
    updateBuf o ((b * channels + c) * height * width + i)
      (o ((b * channels + c) * height * width + i) + bias_data c)) o

/-- Channel loop of the bias step (conv_2d.cc:442). -/
def biasCLoop (bias_data : ℕ → ℚ) (channels height width b : ℕ)
    (o : ℕ → ℚ) : ℕ → ℚ :=
  (List.range channels).foldl (fun o c =>
    biasILoop bias_data channels height width b c o) o

/-- The bias step (conv_2d.cc:439-448): add bias[c] to every element of
channel c's plane for every batch. -/
def biasAdd (bias_data : ℕ → ℚ) (batch channels height width : ℕ)
    (out : ℕ → ℚ) : ℕ → ℚ :=
  (List.range batch).foldl (fun o b =>
    biasCLoop bias_data channels height width b o) out

/-- Modelled from the spec: the activation kinds `DoActivation` supports
(its body, mace/kernels/activation.h, is not part of this file's source);
spec §6 lists None, Relu and ReluN(limit). -/
inductive ActivationKind
  | noop
  | relu
  | relux
  deriving DecidableEq

/-- Modelled from the spec: one element-wise activation application; ReluN
clamps to [0, limit]. -/
def applyActivation (k : ActivationKind) (relux_max_limit x : ℚ) : ℚ :=
  match k with
  | .noop => x
  | .relu => max x 0
  | .relux => min (max x 0) relux_max_limit

/-- Modelled from the spec: `DoActivation` applied in place to the first
`size` buffer elements (invoked at conv_2d.cc:450-451 on `output->size()`
elements). -/
def doActivation (k : ActivationKind) (relux_max_limit : ℚ) (size : ℕ)
    (out : ℕ → ℚ) : ℕ → ℚ :=
  fun i => if i < size then applyActivation k relux_max_limit (out i) else out i

/-- The output assembly phase (conv_2d.cc:420-451) in the fixed source order:
unpack (only when the working output extent differs from the true extent),
then bias (only when a bias tensor is present), then activation over the
whole true-shaped output. `work` is the working output buffer the compute
strategy wrote into; when no unpack is needed the strategy wrote the true
output buffer directly, which `work` then denotes. -/
def outputAssembly (work out : ℕ → ℚ) (bias : Option (ℕ → ℚ))
    (k : ActivationKind) (relux_max_limit : ℚ)
    (batch channels height width eH eW : ℕ) : ℕ → ℚ :=
  let o1 := if eH ≠ height ∨ eW ≠ width then
      unpackOutput work batch channels height width eH eW out
    else work
  let o2 := match bias with
    | some bd => biasAdd bd batch channels height width o1
    | none => o1
  doActivation k relux_max_limit (batch * channels * height * width) o2

/-- Which buffer is handed to the Winograd backend as the transformed filter
(conv_2d.cc:297-322): either the caller's filter buffer (`filter_data`) or
the operator-owned cache tensor (`transformed_filter_`). -/
inductive FilterPtr
  | caller
  | cacheBuf
  deriving DecidableEq

/-- The operator-owned transformed-filter cache tensor `transformed_filter_`:
`resized` models `dim_size() != 0`, and `content` holds the transformed
filter data iff it has ever been written. -/
structure TransformedFilterCache where
  resized : Bool
  content : Option (ℕ → ℚ)

/-- The cache before the first invocation: `dim_size() == 0`, nothing
written. -/
def emptyTFCache : TransformedFilterCache := ⟨false, none⟩

/-- The transformed-filter preparation step of the Winograd branch
(conv_2d.cc:297-322): on an empty cache descriptor, resize the cache, then
either pass the caller's buffer through (pre-transformed filter) or run the
filter transform into the cache; on a non-empty descriptor reuse the cache
buffer unconditionally. `transform` stands for TransformFilter4x4/8x8 at the
invocation's fixed tile size. -/
def prepareWinogradFilter (transform : (ℕ → ℚ) → (ℕ → ℚ))
    (is_filter_transformed : Bool) (filter_data : ℕ → ℚ)
    (c : TransformedFilterCache) : FilterPtr × TransformedFilterCache :=
  if c.resized = false then
    if is_filter_transformed then (.caller, ⟨true, c.content⟩)
    else (.cacheBuf, ⟨true, some (transform filter_data)⟩)
  else (.cacheBuf, c)

/-- The data actually behind the selected filter pointer; `none` when the
pointer refers to a never-written cache buffer. -/
def filterPtrData (p : FilterPtr) (filter_data : ℕ → ℚ)
    (c : TransformedFilterCache) : Option (ℕ → ℚ) :=
  match p with
  | .caller => some filter_data
  | .cacheBuf => c.content

/-- One Winograd-eligible invocation as it concerns the filter cache:
prepare the transformed filter, then run the backend `wino` on the selected
filter bytes and the input (a never-written cache buffer is read as
indeterminate data, modelled as zeros). Returns the output and the updated
cache. -/
def winogradCall (transform : (ℕ → ℚ) → (ℕ → ℚ))
    (wino : (ℕ → ℚ) → (ℕ → ℚ) → (ℕ → ℚ))
    (is_filter_transformed : Bool) (filter_data input : ℕ → ℚ)
    (c : TransformedFilterCache) : (ℕ → ℚ) × TransformedFilterCache :=
  let r := prepareWinogradFilter transform is_filter_transformed filter_data c
  (wino ((filterPtrData r.1 filter_data r.2).getD (fun _ => 0)) input, r.2)

/-- Modelled from the spec: `RoundUp` (mace utils, not part of this file's
source) rounds `n` up to the next multiple of `factor` (spec §4.3). -/
def roundUp (n factor : ℕ) : ℕ :=
  (n + factor - 1) / factor * factor

/-- The extended (tiled) working extents per strategy
(conv_2d.cc:163-166, 201-251): extended input/output heights and widths. -/
structure ExtraExtents where
  extra_input_height : ℕ
  extra_input_width : ℕ
  extra_output_height : ℕ
  extra_output_width : ℕ
  deriving DecidableEq

/-- Extended extents computed by the tiling extender for each strategy
(conv_2d.cc:201-251); `tile` is the Winograd output tile size. The generic
and 1×1 strategies perform no extension. -/
def computeExtraExtents (strat : Strategy) (tile height width
    padded_input_height padded_input_width : ℕ) : ExtraExtents :=
  match strat with
  | .winograd =>
      ⟨max padded_input_height (roundUp height tile + 2),
       max padded_input_width (roundUp width tile + 2),
       roundUp height tile, roundUp width tile⟩
  | .neon3x3s1 =>
      ⟨max padded_input_height (roundUp height 2 + 2),
       max padded_input_width (roundUp width 4 + 2),
       roundUp height 2, roundUp width 4⟩
  | .neon3x3s2 =>
      ⟨max padded_input_height ((height - 1) * 2 + 3),
       max padded_input_width ((roundUp width 4 - 1) * 2 + 3),
       height, roundUp width 4⟩
  | .neon1x1s1 =>
      ⟨padded_input_height, padded_input_width, height, width⟩
  | .generic =>
      ⟨padded_input_height, padded_input_width, height, width⟩

/-- The four resolved pad amounts. -/
structure ResolvedPads where
  pad_top : ℕ
  pad_bottom : ℕ
  pad_left : ℕ
  pad_right : ℕ
  deriving DecidableEq

/-- Pad resolution (conv_2d.cc:161-171) followed by the per-strategy tiling
extension (conv_2d.cc:201-251): the total pad of each dimension is split as
leading = total >> 1, trailing = total − leading, and each strategy branch
then adds its extension beyond the padded extent — when there is one — to
the trailing pad only (the `pad_bottom += ...` / `pad_right += ...` lines
guarded by `extra != padded`, identical in every extending branch). -/
def computePads (strat : Strategy) (tile height width
    input_height input_width padH padW : ℕ) : ResolvedPads :=
  let padded_input_height := input_height + padH
  let padded_input_width := input_width + padW
  let pad_top := padH / 2
  let pad_bottom := padH - pad_top
  let pad_left := padW / 2
  let pad_right := padW - pad_left
  let e := computeExtraExtents strat tile height width
    padded_input_height padded_input_width
  let pad_bottom2 := if e.extra_input_height ≠ padded_input_height then
      pad_bottom + (e.extra_input_height - padded_input_height)
    else pad_bottom
  let pad_right2 := if e.extra_input_width ≠ padded_input_width then
      pad_right + (e.extra_input_width - padded_input_width)
    else pad_right
  ⟨pad_top, pad_bottom2, pad_left, pad_right2⟩

/-- A 4-D tensor shape descriptor, `[dim0, dim1, dim2, dim3]`. -/
structure Tensor4 where
  dim0 : ℕ
  dim1 : ℕ
  dim2 : ℕ
  dim3 : ℕ
  deriving DecidableEq

/-- The fatal precondition aborts of the operator entry
(conv_2d.cc:104-106, 149-151, 159). -/
inductive ConvAbort
  | nullInput
  | nullFilter
  | nullOutput
  | filterOutChannelMismatch
  | filterInChannelMismatch
  | batchMismatch
  deriving DecidableEq

/-- Observable outcome of the operator entry sequence up to the start of
compute work: which abort fired (if any), whether the output tensor had
already been resized and cleared at that point, whether control reached the
compute/scratch phase, and the shape the output was resized to. -/
structure ConvSetupResult where
  abort : Option ConvAbort
  outputModified : Bool
  computeReached : Bool
  resizedShape : Option (List ℕ)
  deriving DecidableEq

/-- The operator entry sequence (conv_2d.cc:99-159) for the explicit-paddings
path, in source order: null checks (104-106); filter-shape resolution
(108-116); output-shape resolution via `CalcNCHWOutputSize` (130-132);
`output->Resize` and `output->Clear()` (134-135); the filter/output channel
check (149), the filter/input channel check (150-151) and the batch check
(159), all of which read `channels` and `batch` from the already-resized
output tensor. -/
def convSetup (input filter output : Option Tensor4) (is_filter_transformed : Bool)
    (padH padW dilation_h dilation_w stride_h stride_w : ℕ) : ConvSetupResult :=
  match input with
  | none => ⟨some .nullInput, false, false, none⟩
  | some inp =>
    match filter with
    | none => ⟨some .nullFilter, false, false, none⟩
    | some flt =>
      match output with
      | none => ⟨some .nullOutput, false, false, none⟩
      | some _ =>
        let fs0 := if is_filter_transformed then flt.dim1 else flt.dim0
        let fs1 := if is_filter_transformed then flt.dim2 else flt.dim1
        let fs2 := if is_filter_transformed then 3 else flt.dim2
        let fs3 := if is_filter_transformed then 3 else flt.dim3
        let out_h := calcOutExtent inp.dim2 padH fs2 dilation_h stride_h
        let out_w := calcOutExtent inp.dim3 padW fs3 dilation_w stride_w
        let output_shape := [inp.dim0, fs0, out_h, out_w]
        let channels := fs0
        let batch := inp.dim0
        let input_channels := inp.dim1
        let input_batch := inp.dim0
        if fs0 ≠ channels then
          ⟨some .filterOutChannelMismatch, true, false, some output_shape⟩
        else if fs1 ≠ input_channels then
          ⟨some .filterInChannelMismatch, true, false, some output_shape⟩
        else if batch ≠ input_batch then
          ⟨some .batchMismatch, true, false, some output_shape⟩
        else ⟨none, true, true, some output_shape⟩

/-- Which input buffer is handed to the compute strategy
(conv_2d.cc:396-406): the padding materializer runs — producing a padded
copy — iff the extended input extent differs from the original input extent
in either dimension; otherwise the original input pointer is used. -/
inductive PadInputChoice
  | originalInput
  | paddedCopy
  deriving DecidableEq

/-- The pad-input dispatch condition (conv_2d.cc:397). -/
def selectPadInput (extra_input_height extra_input_width
    input_height input_width : ℕ) : PadInputChoice :=
  if extra_input_height ≠ input_height ∨ extra_input_width ≠ input_width then
    .paddedCopy
  else .originalInput

/-- Modelled from the spec: `ConstructNCHWInputWithSpecificPadding` (its body
is not part of this file's source) zero-fills a buffer of the extended
extent and copies each original input row to its offset position (spec
§4.5); batch and channel are flattened into one plane index. -/
def constructPaddedInput (input : ℕ → ℚ)
    (input_height input_width pad_top pad_bottom pad_left pad_right : ℕ) : ℕ → ℚ :=
  let eH := input_height + pad_top + pad_bottom
  let eW := input_width + pad_left + pad_right
  fun i =>
    let x := i % eW
    let y := (i / eW) % eH
    let plane := i / (eW * eH)
    if pad_top ≤ y ∧ y < pad_top + input_height
        ∧ pad_left ≤ x ∧ x < pad_left + input_width then
      input (plane * input_height * input_width
        + (y - pad_top) * input_width + (x - pad_left))
    else 0

/- ------------------------------------------------------------------ -/
/- Generic helper lemmas about folds over ranges with pointwise state  -/
/- ------------------------------------------------------------------ -/

theorem foldl_preserve {α : Type} (F : ℕ → (ℕ → α) → (ℕ → α)) (t : ℕ) :
    ∀ (L : List ℕ) (out : ℕ → α), (∀ i ∈ L, ∀ o, F i o t = o t) →
      (L.foldl (fun o i => F i o) out) t = out t := by
  intro L
  induction L with
  | nil => intro out _; rfl
  | cons a l ih =>
      intro out h
      have h2 : (List.foldl (fun o i => F i o) (F a out) l) t = (F a out) t :=
        ih (F a out) (fun i hi o => h i (List.mem_cons_of_mem a hi) o)
      rw [List.foldl_cons, h2, h a (List.mem_cons_self a l) out]

theorem foldl_char {α : Type} (F : ℕ → (ℕ → α) → (ℕ → α)) (t i0 : ℕ) (G : α → α) :
    ∀ (L : List ℕ) (out : ℕ → α), i0 ∈ L → L.Nodup →
      (∀ i ∈ L, i ≠ i0 → ∀ o, F i o t = o t) →
      (∀ o : ℕ → α, F i0 o t = G (o t)) →
      (L.foldl (fun o i => F i o) out) t = G (out t) := by
  intro L
  induction L with
  | nil => intro out hmem _ _ _; exact absurd hmem (List.not_mem_nil i0)
  | cons a l ih =>
      intro out hmem hnd hun htouch
      by_cases ha : a = i0
      · subst ha
        have hnotin : a ∉ l := (List.nodup_cons.mp hnd).1
        rw [List.foldl_cons]
        rw [foldl_preserve F t l (F a out)
          (fun i hi o => hun i (List.mem_cons_of_mem a hi)
            (fun he => hnotin (he ▸ hi)) o)]
        exact htouch out
      · have hmem2 : i0 ∈ l := by
          rcases List.mem_cons.mp hmem with h | h
          · exact absurd h.symm ha
          · exact h
        rw [List.foldl_cons]
        rw [ih (F a out) hmem2 (List.nodup_cons.mp hnd).2
          (fun i hi hne o => hun i (List.mem_cons_of_mem a hi) hne o) htouch]
        rw [hun a (List.mem_cons_self a l) ha out]

theorem foldl_add_sum (f : ℕ → ℚ) :
    ∀ (n : ℕ) (a : ℚ),
      (List.range n).foldl (fun a i => a + f i) a = a + ∑ i ∈ Finset.range n, f i := by
  intro n
  induction n with
  | zero => intro a; simp
  | succ k ih =>
      intro a
      rw [List.range_succ, List.foldl_append, ih, Finset.sum_range_succ]
      simp [add_assoc]

theorem mixedRadix {W x y w v : ℕ} (hw : w < W) (hv : v < W)
    (h : x * W + w = y * W + v) : x = y ∧ w = v := by
  have hW : 0 < W := lt_of_le_of_lt (Nat.zero_le w) hw
  have hmod : w = v := by
    have h1 : (x * W + w) % W = (y * W + v) % W := by rw [h]
    rwa [Nat.mul_comm x W, Nat.mul_comm y W, Nat.mul_add_mod, Nat.mul_add_mod,
      Nat.mod_eq_of_lt hw, Nat.mod_eq_of_lt hv] at h1
  refine ⟨?_, hmod⟩
  subst hmod
  have h2 : x * W = y * W := by omega
  exact Nat.eq_of_mul_eq_mul_right hW h2

theorem window_mem {W p q w : ℕ} (hw : w < W) :
    (p * W ≤ q * W + w ∧ q * W + w < p * W + W) ↔ p = q := by
  constructor
  · rintro ⟨h1, h2⟩
    rcases Nat.lt_trichotomy p q with h | h | h
    · exfalso
      have : (p + 1) * W ≤ q * W := Nat.mul_le_mul_right W h
      have : p * W + W ≤ q * W := by rw [Nat.succ_mul] at this; omega
      omega
    · exact h
    · exfalso
      have : (q + 1) * W ≤ p * W := Nat.mul_le_mul_right W h
      have : q * W + W ≤ p * W := by rw [Nat.succ_mul] at this; omega
      omega
  · rintro rfl
    exact ⟨Nat.le_add_right _ _, by omega⟩

theorem outOffset_eq_iff {O H W b m h w b2 m2 h2 w2 : ℕ}
    (hm : m < O) (hm2 : m2 < O) (hh : h < H) (hh2 : h2 < H)
    (hw : w < W) (hw2 : w2 < W) :
    outOffset O H W b m h w = outOffset O H W b2 m2 h2 w2 ↔
      (b = b2 ∧ m = m2 ∧ h = h2 ∧ w = w2) := by
  constructor
  · intro he
    unfold outOffset at he
    obtain ⟨e1, ew⟩ := mixedRadix hw hw2 he
    obtain ⟨e2, eh⟩ := mixedRadix hh hh2 e1
    obtain ⟨e3, em⟩ := mixedRadix hm hm2 e2
    exact ⟨e3, em, eh, ew⟩
  · rintro ⟨rfl, rfl, rfl, rfl⟩
    rfl

theorem foldl_add_sum_three (f : ℕ → ℕ → ℕ → ℚ) (n1 n2 n3 : ℕ) (a : ℚ) :
    (List.range n1).foldl (fun a c =>
      (List.range n2).foldl (fun a kh =>
        (List.range n3).foldl (fun a kw => a + f c kh kw) a) a) a
    = a + ∑ c ∈ Finset.range n1, ∑ kh ∈ Finset.range n2,
        ∑ kw ∈ Finset.range n3, f c kh kw := by
  have h2 : ∀ (c : ℕ) (a : ℚ),
      (List.range n2).foldl (fun a kh =>
        (List.range n3).foldl (fun a kw => a + f c kh kw) a) a
      = a + ∑ kh ∈ Finset.range n2, ∑ kw ∈ Finset.range n3, f c kh kw := by
    intro c a
    have h3 : (fun (a : ℚ) (kh : ℕ) =>
        (List.range n3).foldl (fun a kw => a + f c kh kw) a)
        = fun (a : ℚ) (kh : ℕ) => a + ∑ kw ∈ Finset.range n3, f c kh kw := by
      funext a kh
      exact foldl_add_sum (f c kh) n3 a
    rw [h3, foldl_add_sum]
  have h1 : (fun (a : ℚ) (c : ℕ) =>
      (List.range n2).foldl (fun a kh =>
        (List.range n3).foldl (fun a kw => a + f c kh kw) a) a)
      = fun (a : ℚ) (c : ℕ) => a + ∑ kh ∈ Finset.range n2,
          ∑ kw ∈ Finset.range n3, f c kh kw := by
    funext a c
    exact h2 c a
  rw [h1, foldl_add_sum]

theorem innerAcc_eq_sum (input filter : ℕ → ℚ) (p : ConvParams) (b m h w : ℕ) (acc : ℚ) :
    innerAcc input filter p b m h w acc =
      acc + ∑ c ∈ Finset.range p.in_channels, ∑ kh ∈ Finset.range p.filter_height,
        ∑ kw ∈ Finset.range p.filter_width,
          input (inOffset p.in_channels p.in_height p.in_width b c
              (h * p.stride_h + kh * p.dilation_h) (w * p.stride_w + kw * p.dilation_w))
            * filter (filterOffset p.in_channels p.filter_height p.filter_width m c kh kw) := by
  unfold innerAcc
  exact foldl_add_sum_three _ _ _ _ acc

theorem convWLoop_untouched (input filter : ℕ → ℚ) (p : ConvParams) (b m h t : ℕ)
    (hne : ∀ w < p.out_width,
      outOffset p.out_channels p.out_height p.out_width b m h w ≠ t)
    (o : ℕ → ℚ) : convWLoop input filter p b m h o t = o t := by
  unfold convWLoop
  apply foldl_preserve
  intro w hw o2
  have hx := hne w (List.mem_range.mp hw)
  simp [updateBuf, Ne.symm hx]

theorem convWLoop_touched (input filter : ℕ → ℚ) (p : ConvParams) (b m h w0 : ℕ)
    (hw0 : w0 < p.out_width) (o : ℕ → ℚ) :
    convWLoop input filter p b m h o
        (outOffset p.out_channels p.out_height p.out_width b m h w0)
      = innerAcc input filter p b m h w0
          (o (outOffset p.out_channels p.out_height p.out_width b m h w0)) := by
  unfold convWLoop
  apply foldl_char _ _ w0 (fun a => innerAcc input filter p b m h w0 a)
  · exact List.mem_range.mpr hw0
  · exact List.nodup_range _
  · intro w hw hw_ne o2
    have hwlt := List.mem_range.mp hw
    have hoff : outOffset p.out_channels p.out_height p.out_width b m h w ≠
        outOffset p.out_channels p.out_height p.out_width b m h w0 := by
      intro he
      unfold outOffset at he
      obtain ⟨-, hww⟩ := mixedRadix hwlt hw0 he
      exact hw_ne hww
    simp [updateBuf, Ne.symm hoff]
  · intro o2
    simp [updateBuf]

theorem convHLoop_untouched (input filter : ℕ → ℚ) (p : ConvParams) (b m t : ℕ)
    (hne : ∀ h < p.out_height, ∀ w < p.out_width,
      outOffset p.out_channels p.out_height p.out_width b m h w ≠ t)
    (o : ℕ → ℚ) : convHLoop input filter p b m o t = o t := by
  unfold convHLoop
  apply foldl_preserve
  intro h hh o2
  exact convWLoop_untouched input filter p b m h t
    (fun w hw => hne h (List.mem_range.mp hh) w hw) o2

theorem convHLoop_touched (input filter : ℕ → ℚ) (p : ConvParams) (b m h0 w0 : ℕ)
    (hh0 : h0 < p.out_height) (hw0 : w0 < p.out_width) (o : ℕ → ℚ) :
    convHLoop input filter p b m o
        (outOffset p.out_channels p.out_height p.out_width b m h0 w0)
      = innerAcc input filter p b m h0 w0
          (o (outOffset p.out_channels p.out_height p.out_width b m h0 w0)) := by
  unfold convHLoop
  apply foldl_char _ _ h0 (fun a => innerAcc input filter p b m h0 w0 a)
  · exact List.mem_range.mpr hh0
  · exact List.nodup_range _
  · intro h hh hh_ne o2
    apply convWLoop_untouched
    intro w hw he
    unfold outOffset at he
    obtain ⟨e1, -⟩ := mixedRadix hw hw0 he
    obtain ⟨-, hhh⟩ := mixedRadix (List.mem_range.mp hh) hh0 e1
    exact hh_ne hhh
  · intro o2
    exact convWLoop_touched input filter p b m h0 w0 hw0 o2

theorem convMLoop_untouched (input filter : ℕ → ℚ) (p : ConvParams) (b t : ℕ)
    (hne : ∀ m < p.out_channels, ∀ h < p.out_height, ∀ w < p.out_width,
      outOffset p.out_channels p.out_height p.out_width b m h w ≠ t)
    (o : ℕ → ℚ) : convMLoop input filter p b o t = o t := by
  unfold convMLoop
  apply foldl_preserve
  intro m hm o2
  exact convHLoop_untouched input filter p b m t
    (fun h hh w hw => hne m (List.mem_range.mp hm) h hh w hw) o2

theorem convMLoop_touched (input filter : ℕ → ℚ) (p : ConvParams) (b m0 h0 w0 : ℕ)
    (hm0 : m0 < p.out_channels) (hh0 : h0 < p.out_height) (hw0 : w0 < p.out_width)
    (o : ℕ → ℚ) :
    convMLoop input filter p b o
        (outOffset p.out_channels p.out_height p.out_width b m0 h0 w0)
      = innerAcc input filter p b m0 h0 w0
          (o (outOffset p.out_channels p.out_height p.out_width b m0 h0 w0)) := by
  unfold convMLoop
  apply foldl_char _ _ m0 (fun a => innerAcc input filter p b m0 h0 w0 a)
  · exact List.mem_range.mpr hm0
  · exact List.nodup_range _
  · intro m hm hm_ne o2
    apply convHLoop_untouched
    intro h hh w hw he
    unfold outOffset at he
    obtain ⟨e1, -⟩ := mixedRadix hw hw0 he
    obtain ⟨e2, -⟩ := mixedRadix hh hh0 e1
    obtain ⟨-, hmm⟩ := mixedRadix (List.mem_range.mp hm) hm0 e2
    exact hm_ne hmm
  · intro o2
    exact convHLoop_touched input filter p b m0 h0 w0 hh0 hw0 o2

theorem Conv2dNCHW_element (input filter : ℕ → ℚ) (p : ConvParams) (b0 m0 h0 w0 : ℕ)
    (hb0 : b0 < p.batch) (hm0 : m0 < p.out_channels)
    (hh0 : h0 < p.out_height) (hw0 : w0 < p.out_width) (output : ℕ → ℚ) :
    Conv2dNCHW input filter p output
        (outOffset p.out_channels p.out_height p.out_width b0 m0 h0 w0)
      = innerAcc input filter p b0 m0 h0 w0
          (output (outOffset p.out_channels p.out_height p.out_width b0 m0 h0 w0)) := by
  unfold Conv2dNCHW
  apply foldl_char _ _ b0 (fun a => innerAcc input filter p b0 m0 h0 w0 a)
  · exact List.mem_range.mpr hb0
  · exact List.nodup_range _
  · intro b hb hb_ne o2
    apply convMLoop_untouched
    intro m hm h hh w hw he
    unfold outOffset at he
    obtain ⟨e1, -⟩ := mixedRadix hw hw0 he
    obtain ⟨e2, -⟩ := mixedRadix hh hh0 e1
    obtain ⟨hbb, -⟩ := mixedRadix hm hm0 e2
    exact hb_ne hbb
  · intro o2
    exact convMLoop_touched input filter p b0 m0 h0 w0 hm0 hh0 hw0 o2

/-- C1 For the Generic Direct strategy, every output element (b, m, h, w) of a
zero-initialized output buffer equals the sum over (in_channel c, kernel_row kh,
kernel_col kw) of input[b, c, h·stride_h + kh·dilation_h, w·stride_w + kw·dilation_w]
· filter[m, c, kh, kw]; in particular for the all-ones 5×5 input and all-ones 3×3
filter with stride (1,1), dilation (1,1) and zero padding, the output extent is
3×3 and every output element equals 9. -/
theorem c1_generic_direct_convolution :
    (∀ (input filter : ℕ → ℚ) (p : ConvParams) (b m h w : ℕ),
        b < p.batch → m < p.out_channels → h < p.out_height → w < p.out_width →
        Conv2dNCHW input filter p (fun _ => 0)
            (outOffset p.out_channels p.out_height p.out_width b m h w) =
          ∑ c ∈ Finset.range p.in_channels, ∑ kh ∈ Finset.range p.filter_height,
            ∑ kw ∈ Finset.range p.filter_width,
              input (inOffset p.in_channels p.in_height p.in_width b c
                  (h * p.stride_h + kh * p.dilation_h) (w * p.stride_w + kw * p.dilation_w))
                * filter (filterOffset p.in_channels p.filter_height p.filter_width m c kh kw)) ∧
    calcOutExtent 5 0 3 1 1 = 3 ∧
    (List.range 9).map
        (fun i => Conv2dNCHW (fun _ => 1) (fun _ => 1) convExampleParams (fun _ => 0) i)
      = List.replicate 9 9 := by
  have hgen : ∀ (input filter : ℕ → ℚ) (p : ConvParams) (b m h w : ℕ),
      b < p.batch → m < p.out_channels → h < p.out_height → w < p.out_width →
      Conv2dNCHW input filter p (fun _ => 0)
          (outOffset p.out_channels p.out_height p.out_width b m h w) =
        ∑ c ∈ Finset.range p.in_channels, ∑ kh ∈ Finset.range p.filter_height,
          ∑ kw ∈ Finset.range p.filter_width,
            input (inOffset p.in_channels p.in_height p.in_width b c
                (h * p.stride_h + kh * p.dilation_h) (w * p.stride_w + kw * p.dilation_w))
              * filter (filterOffset p.in_channels p.filter_height p.filter_width m c kh kw) := by
    intro input filter p b m h w hb hm hh hw
    rw [Conv2dNCHW_element input filter p b m h w hb hm hh hw, innerAcc_eq_sum]
    simp
  refine ⟨hgen, by decide, ?_⟩
  have key : ∀ h w : ℕ, h < 3 → w < 3 →
      Conv2dNCHW (fun _ => 1) (fun _ => 1) convExampleParams (fun _ => 0)
        (outOffset 1 3 3 0 0 h w) = 9 := by
    intro h w hh hw
    have he := hgen (fun _ => 1) (fun _ => 1) convExampleParams 0 0 h w
      (by decide) (by decide) hh hw
    rw [show outOffset 1 3 3 0 0 h w
        = outOffset convExampleParams.out_channels convExampleParams.out_height
            convExampleParams.out_width 0 0 h w from rfl]
    rw [he]
    show (∑ _c ∈ Finset.range 1, ∑ _kh ∈ Finset.range 3,
        ∑ _kw ∈ Finset.range 3, (1 : ℚ) * 1) = 9
    norm_num
  rw [List.eq_replicate_iff]
  refine ⟨by simp, ?_⟩
  intro v hv
  simp only [List.mem_map, List.mem_range] at hv
  obtain ⟨i, hi, rfl⟩ := hv
  have hoff : outOffset 1 3 3 0 0 (i / 3) (i % 3) = i := by
    unfold outOffset
    omega
  rw [← hoff]
  exact key (i / 3) (i % 3) (by omega) (by omega)

/-- Witness for C1: the general element formula applied at the example
parameters, batch 0, channel 0, output position (1, 2). -/
theorem c1_generic_direct_convolution_witness :
    Conv2dNCHW (fun _ => 1) (fun _ => 1) convExampleParams (fun _ => 0)
        (outOffset convExampleParams.out_channels convExampleParams.out_height
          convExampleParams.out_width 0 0 1 2) =
      ∑ c ∈ Finset.range convExampleParams.in_channels,
        ∑ kh ∈ Finset.range convExampleParams.filter_height,
          ∑ kw ∈ Finset.range convExampleParams.filter_width,
            (fun _ => (1 : ℚ)) (inOffset convExampleParams.in_channels
                convExampleParams.in_height convExampleParams.in_width 0 c
                (1 * convExampleParams.stride_h + kh * convExampleParams.dilation_h)
                (2 * convExampleParams.stride_w + kw * convExampleParams.dilation_w))
              * (fun _ => (1 : ℚ)) (filterOffset convExampleParams.in_channels
                  convExampleParams.filter_height convExampleParams.filter_width 0 c kh kw) :=
  c1_generic_direct_convolution.1 (fun _ => 1) (fun _ => 1) convExampleParams 0 0 1 2
    (by decide) (by decide) (by decide) (by decide)

/-- C2 Strategy selection is a pure function of the filter size, strides,
dilations and channel counts, decided by first-match priority: Winograd iff
pre-transformed filter or (3×3, stride 1×1, dilation 1×1, in_channels ≥ 8,
out_channels ≥ 8); otherwise fixed 3×3 stride-1 iff (3×3, 1×1, 1×1); otherwise
fixed 3×3 stride-2 iff (3×3, 2×2, 1×1); otherwise fixed 1×1 stride-1 iff
(1×1, 1×1, 1×1); otherwise Generic Direct — exactly one strategy per call. -/
theorem c2_strategy_selection :
    ∀ (is_tr : Bool) (fh fw sh sw dh dw inC outC : ℕ),
      (selectStrategy is_tr fh fw sh sw dh dw inC outC = .winograd ↔
        (is_tr = true ∨ (fh = 3 ∧ fw = 3 ∧ sh = 1 ∧ sw = 1 ∧ dh = 1 ∧ dw = 1
          ∧ 8 ≤ inC ∧ 8 ≤ outC))) ∧
      (selectStrategy is_tr fh fw sh sw dh dw inC outC = .neon3x3s1 ↔
        (¬(is_tr = true ∨ (fh = 3 ∧ fw = 3 ∧ sh = 1 ∧ sw = 1 ∧ dh = 1 ∧ dw = 1
            ∧ 8 ≤ inC ∧ 8 ≤ outC))
          ∧ (fh = 3 ∧ fw = 3 ∧ sh = 1 ∧ sw = 1 ∧ dh = 1 ∧ dw = 1))) ∧
      (selectStrategy is_tr fh fw sh sw dh dw inC outC = .neon3x3s2 ↔
        (¬(is_tr = true ∨ (fh = 3 ∧ fw = 3 ∧ sh = 1 ∧ sw = 1 ∧ dh = 1 ∧ dw = 1
            ∧ 8 ≤ inC ∧ 8 ≤ outC))
          ∧ ¬(fh = 3 ∧ fw = 3 ∧ sh = 1 ∧ sw = 1 ∧ dh = 1 ∧ dw = 1)
          ∧ (fh = 3 ∧ fw = 3 ∧ sh = 2 ∧ sw = 2 ∧ dh = 1 ∧ dw = 1))) ∧
      (selectStrategy is_tr fh fw sh sw dh dw inC outC = .neon1x1s1 ↔
        (¬(is_tr = true ∨ (fh = 3 ∧ fw = 3 ∧ sh = 1 ∧ sw = 1 ∧ dh = 1 ∧ dw = 1
            ∧ 8 ≤ inC ∧ 8 ≤ outC))
          ∧ ¬(fh = 3 ∧ fw = 3 ∧ sh = 1 ∧ sw = 1 ∧ dh = 1 ∧ dw = 1)
          ∧ ¬(fh = 3 ∧ fw = 3 ∧ sh = 2 ∧ sw = 2 ∧ dh = 1 ∧ dw = 1)
          ∧ (fh = 1 ∧ fw = 1 ∧ sh = 1 ∧ sw = 1 ∧ dh = 1 ∧ dw = 1))) ∧
      (selectStrategy is_tr fh fw sh sw dh dw inC outC = .generic ↔
        (¬(is_tr = true ∨ (fh = 3 ∧ fw = 3 ∧ sh = 1 ∧ sw = 1 ∧ dh = 1 ∧ dw = 1
            ∧ 8 ≤ inC ∧ 8 ≤ outC))
          ∧ ¬(fh = 3 ∧ fw = 3 ∧ sh = 1 ∧ sw = 1 ∧ dh = 1 ∧ dw = 1)
          ∧ ¬(fh = 3 ∧ fw = 3 ∧ sh = 2 ∧ sw = 2 ∧ dh = 1 ∧ dw = 1)
          ∧ ¬(fh = 1 ∧ fw = 1 ∧ sh = 1 ∧ sw = 1 ∧ dh = 1 ∧ dw = 1))) := by
  intro is_tr fh fw sh sw dh dw inC outC
  have hw : use_winograd is_tr fh fw sh sw dh dw inC outC = true ↔
      (is_tr = true ∨ (fh = 3 ∧ fw = 3 ∧ sh = 1 ∧ sw = 1 ∧ dh = 1 ∧ dw = 1
        ∧ 8 ≤ inC ∧ 8 ≤ outC)) := by
    simp [use_winograd, Bool.or_eq_true, Bool.and_eq_true, beq_iff_eq,
      decide_eq_true_iff, and_assoc]
  have h1 : use_neon_3x3_s1 fh fw sh sw dh dw = true ↔
      (fh = 3 ∧ fw = 3 ∧ sh = 1 ∧ sw = 1 ∧ dh = 1 ∧ dw = 1) := by
    simp [use_neon_3x3_s1, Bool.and_eq_true, beq_iff_eq, and_assoc]
  have h2 : use_neon_3x3_s2 fh fw sh sw dh dw = true ↔
      (fh = 3 ∧ fw = 3 ∧ sh = 2 ∧ sw = 2 ∧ dh = 1 ∧ dw = 1) := by
    simp [use_neon_3x3_s2, Bool.and_eq_true, beq_iff_eq, and_assoc]
  have h3 : use_neon_1x1_s1 fh fw sh sw dh dw = true ↔
      (fh = 1 ∧ fw = 1 ∧ sh = 1 ∧ sw = 1 ∧ dh = 1 ∧ dw = 1) := by
    simp [use_neon_1x1_s1, Bool.and_eq_true, beq_iff_eq, and_assoc]
  unfold selectStrategy
  split_ifs with g1 g2 g3 g4 <;> simp_all

/-- Witness for C2: the selection characterization instantiated at a concrete
configuration (3×3 filter, stride 1, dilation 1, 8 input and 8 output
channels selects Winograd). -/
theorem c2_strategy_selection_witness :
    selectStrategy false 3 3 1 1 1 1 8 8 = .winograd ↔
      (false = true ∨ ((3:ℕ) = 3 ∧ (3:ℕ) = 3 ∧ (1:ℕ) = 1 ∧ (1:ℕ) = 1 ∧ (1:ℕ) = 1
        ∧ (1:ℕ) = 1 ∧ (8:ℕ) ≤ 8 ∧ (8:ℕ) ≤ 8)) :=
  (c2_strategy_selection false 3 3 1 1 1 1 8 8).1

/-- C3 For every output position and kernel offset of the Generic Direct
kernel, the accessed input row index h·stride_h + kh·dilation_h (and likewise
the column index) is strictly below the extended input extent, provided the
output extent satisfies the resolver's output-size formula for the extended
input extent (stated per dimension; `extH` is the extended extent and the
formula is `calcOutExtent` applied with the pad already folded in). -/
theorem c3_generic_direct_in_range :
    ∀ (extH fh dh sh outH h kh : ℕ),
      outH = calcOutExtent extH 0 fh dh sh →
      h < outH → kh < fh → dh * (fh - 1) + 1 ≤ extH →
      h * sh + kh * dh < extH := by
  intro extH fh dh sh outH h kh hout hh hkh hvalid
  subst hout
  unfold calcOutExtent at hh
  generalize hq : (extH + 0 - dh * (fh - 1) - 1) / sh = q at hh
  have h1 : h * sh ≤ q * sh := Nat.mul_le_mul_right sh (by omega)
  have h2 : q * sh ≤ extH + 0 - dh * (fh - 1) - 1 := hq ▸ Nat.div_mul_le_self _ _
  have h3 : kh * dh ≤ (fh - 1) * dh := Nat.mul_le_mul_right dh (by omega)
  rw [Nat.mul_comm (fh - 1) dh] at h3
  omega

/-- Witness for C3: extended extent 7, 3×3 filter, dilation 1, stride 1 gives
output extent 5; position h = 4 with kernel offset kh = 2 reads row 6 < 7. -/
theorem c3_generic_direct_in_range_witness :
    (5 = calcOutExtent 7 0 3 1 1) ∧ 4 * 1 + 2 * 1 < 7 :=
  ⟨by decide, c3_generic_direct_in_range 7 3 1 1 5 4 2 (by decide) (by decide)
    (by decide) (by decide)⟩

theorem unpackDstOff_eq (C H W b c h : ℕ) :
    unpackDstOff C H W b c h = ((b * C + c) * H + h) * W := by
  unfold unpackDstOff
  ring

theorem unpack_memcpy_untouched (padOut : ℕ → ℚ) (C H W eH eW b c h P0 w : ℕ)
    (hw : w < W) (hne : (b * C + c) * H + h ≠ P0) (o : ℕ → ℚ) :
    memcpyF o (unpackDstOff C H W b c h) padOut (unpackSrcOff C eH eW b c h) W
        (P0 * W + w) = o (P0 * W + w) := by
  have hcon : ¬(unpackDstOff C H W b c h ≤ P0 * W + w ∧
      P0 * W + w < unpackDstOff C H W b c h + W) := by
    rw [unpackDstOff_eq]
    intro hc
    exact hne ((window_mem hw).mp hc)
  simp only [memcpyF, if_neg hcon]

theorem unpack_memcpy_touched (padOut : ℕ → ℚ) (C H W eH eW b c h w : ℕ)
    (hw : w < W) (o : ℕ → ℚ) :
    memcpyF o (unpackDstOff C H W b c h) padOut (unpackSrcOff C eH eW b c h) W
        (((b * C + c) * H + h) * W + w)
      = padOut (unpackSrcOff C eH eW b c h + w) := by
  have hc : unpackDstOff C H W b c h ≤ ((b * C + c) * H + h) * W + w ∧
      ((b * C + c) * H + h) * W + w < unpackDstOff C H W b c h + W := by
    rw [unpackDstOff_eq]
    omega
  simp only [memcpyF, if_pos hc]
  congr 1
  rw [unpackDstOff_eq]
  omega

theorem unpackHLoop_untouched (padOut : ℕ → ℚ) (C H W eH eW b c P0 w : ℕ)
    (hw : w < W) (hne : ∀ h < H, (b * C + c) * H + h ≠ P0) (o : ℕ → ℚ) :
    unpackHLoop padOut C H W eH eW b c o (P0 * W + w) = o (P0 * W + w) := by
  unfold unpackHLoop
  apply foldl_preserve
  intro h hh o2
  exact unpack_memcpy_untouched padOut C H W eH eW b c h P0 w hw
    (hne h (List.mem_range.mp hh)) o2

theorem unpackHLoop_touched (padOut : ℕ → ℚ) (C H W eH eW b c h0 w : ℕ)
    (hh0 : h0 < H) (hw : w < W) (o : ℕ → ℚ) :
    unpackHLoop padOut C H W eH eW b c o (((b * C + c) * H + h0) * W + w)
      = padOut (unpackSrcOff C eH eW b c h0 + w) := by
  unfold unpackHLoop
  apply foldl_char _ _ h0 (fun _ => padOut (unpackSrcOff C eH eW b c h0 + w))
  · exact List.mem_range.mpr hh0
  · exact List.nodup_range _
  · intro h hh hne o2
    apply unpack_memcpy_untouched padOut C H W eH eW b c h _ w hw
    intro he
    have : h = h0 := by omega
    exact hne this
  · intro o2
    exact unpack_memcpy_touched padOut C H W eH eW b c h0 w hw o2

theorem unpackCLoop_untouched (padOut : ℕ → ℚ) (C H W eH eW b P0 w : ℕ)
    (hw : w < W) (hne : ∀ c < C, ∀ h < H, (b * C + c) * H + h ≠ P0) (o : ℕ → ℚ) :
    unpackCLoop padOut C H W eH eW b o (P0 * W + w) = o (P0 * W + w) := by
  unfold unpackCLoop
  apply foldl_preserve
  intro c hc o2
  exact unpackHLoop_untouched padOut C H W eH eW b c P0 w hw
    (fun h hh => hne c (List.mem_range.mp hc) h hh) o2

theorem unpackCLoop_touched (padOut : ℕ → ℚ) (C H W eH eW b c0 h0 w : ℕ)
    (hc0 : c0 < C) (hh0 : h0 < H) (hw : w < W) (o : ℕ → ℚ) :
    unpackCLoop padOut C H W eH eW b o (((b * C + c0) * H + h0) * W + w)
      = padOut (unpackSrcOff C eH eW b c0 h0 + w) := by
  unfold unpackCLoop
  apply foldl_char _ _ c0 (fun _ => padOut (unpackSrcOff C eH eW b c0 h0 + w))
  · exact List.mem_range.mpr hc0
  · exact List.nodup_range _
  · intro c hc hne o2
    apply unpackHLoop_untouched padOut C H W eH eW b c _ w hw
    intro h hh he
    obtain ⟨he2, -⟩ := mixedRadix hh hh0 he
    have : c = c0 := by omega
    exact hne this
  · intro o2
    exact unpackHLoop_touched padOut C H W eH eW b c0 h0 w hh0 hw o2

theorem unpackOutput_element (padOut : ℕ → ℚ) (B C H W eH eW : ℕ) (out : ℕ → ℚ)
    (b c h w : ℕ) (hb : b < B) (hc : c < C) (hh : h < H) (hw : w < W) :
    unpackOutput padOut B C H W eH eW out (unpackDstOff C H W b c h + w)
      = padOut (unpackSrcOff C eH eW b c h + w) := by
  rw [unpackDstOff_eq]
  unfold unpackOutput
  apply foldl_char _ _ b (fun _ => padOut (unpackSrcOff C eH eW b c h + w))
  · exact List.mem_range.mpr hb
  · exact List.nodup_range _
  · intro b2 hb2 hne o2
    apply unpackCLoop_untouched padOut C H W eH eW b2 _ w hw
    intro c2 hc2 h2 hh2 he
    obtain ⟨he2, -⟩ := mixedRadix hh2 hh he
    obtain ⟨he3, -⟩ := mixedRadix hc2 hc he2
    exact hne he3
  · intro o2
    exact unpackCLoop_touched padOut C H W eH eW b c h w hc hh hw o2

theorem biasKey_eq (C H W b c i : ℕ) :
    (b * C + c) * H * W + i = (b * C + c) * (H * W) + i := by
  ring

theorem biasILoop_untouched (bd : ℕ → ℚ) (C H W b c P0 i0 : ℕ)
    (hi0 : i0 < H * W) (hne : b * C + c ≠ P0) (o : ℕ → ℚ) :
    biasILoop bd C H W b c o (P0 * (H * W) + i0) = o (P0 * (H * W) + i0) := by
  unfold biasILoop
  apply foldl_preserve
  intro i hi o2
  have hkey : (b * C + c) * H * W + i ≠ P0 * (H * W) + i0 := by
    rw [biasKey_eq]
    intro he
    exact hne (mixedRadix (List.mem_range.mp hi) hi0 he).1
  simp [updateBuf, Ne.symm hkey]

theorem biasILoop_touched (bd : ℕ → ℚ) (C H W b c i0 : ℕ)
    (hi0 : i0 < H * W) (o : ℕ → ℚ) :
    biasILoop bd C H W b c o ((b * C + c) * (H * W) + i0)
      = o ((b * C + c) * (H * W) + i0) + bd c := by
  unfold biasILoop
  apply foldl_char _ _ i0 (fun a => a + bd c)
  · exact List.mem_range.mpr hi0
  · exact List.nodup_range _
  · intro i hi hne o2
    have hkey : (b * C + c) * H * W + i ≠ (b * C + c) * (H * W) + i0 := by
      rw [biasKey_eq]
      omega
    simp [updateBuf, Ne.symm hkey]
  · intro o2
    have hkey : (b * C + c) * H * W + i0 = (b * C + c) * (H * W) + i0 :=
      biasKey_eq C H W b c i0
    simp [updateBuf, hkey]

theorem biasCLoop_untouched (bd : ℕ → ℚ) (C H W b2 P0 i0 : ℕ)
    (hi0 : i0 < H * W) (hne : ∀ c2 < C, b2 * C + c2 ≠ P0) (o : ℕ → ℚ) :
    biasCLoop bd C H W b2 o (P0 * (H * W) + i0) = o (P0 * (H * W) + i0) := by
  unfold biasCLoop
  apply foldl_preserve
  intro c2 hc2 o2
  exact biasILoop_untouched bd C H W b2 c2 P0 i0 hi0
    (hne c2 (List.mem_range.mp hc2)) o2

theorem biasCLoop_touched (bd : ℕ → ℚ) (C H W b c i0 : ℕ)
    (hc : c < C) (hi0 : i0 < H * W) (o : ℕ → ℚ) :
    biasCLoop bd C H W b o ((b * C + c) * (H * W) + i0)
      = o ((b * C + c) * (H * W) + i0) + bd c := by
  unfold biasCLoop
  apply foldl_char _ _ c (fun a => a + bd c)
  · exact List.mem_range.mpr hc
  · exact List.nodup_range _
  · intro c2 hc2 hne o2
    apply biasILoop_untouched bd C H W b c2 _ i0 hi0
    omega
  · intro o2
    exact biasILoop_touched bd C H W b c i0 hi0 o2

theorem biasAdd_element (bd : ℕ → ℚ) (B C H W : ℕ) (out : ℕ → ℚ) (b c i : ℕ)
    (hb : b < B) (hc : c < C) (hi : i < H * W) :
    biasAdd bd B C H W out ((b * C + c) * H * W + i)
      = out ((b * C + c) * H * W + i) + bd c := by
  rw [biasKey_eq]
  unfold biasAdd
  apply foldl_char _ _ b (fun a => a + bd c)
  · exact List.mem_range.mpr hb
  · exact List.nodup_range _
  · intro b2 hb2 hne o2
    apply biasCLoop_untouched bd C H W b2 _ i hi
    intro c2 hc2 he
    exact hne (mixedRadix hc2 hc he).1
  · intro o2
    exact biasCLoop_touched bd C H W b c i hc hi o2

theorem flatIdx_lt {B C H W b c h w : ℕ}
    (hb : b < B) (hc : c < C) (hh : h < H) (hw : w < W) :
    ((b * C + c) * H + h) * W + w < B * C * H * W := by
  have h1 : b * C + c < B * C := by
    calc b * C + c < b * C + C := by omega
    _ = (b + 1) * C := by ring
    _ ≤ B * C := Nat.mul_le_mul_right C hb
  have h2 : (b * C + c) * H + h < B * C * H := by
    calc (b * C + c) * H + h < (b * C + c) * H + H := by omega
    _ = ((b * C + c) + 1) * H := by ring
    _ ≤ B * C * H := Nat.mul_le_mul_right H h1
  calc ((b * C + c) * H + h) * W + w < ((b * C + c) * H + h) * W + W := by omega
  _ = (((b * C + c) * H + h) + 1) * W := by ring
  _ ≤ B * C * H * W := Nat.mul_le_mul_right W h2

/-- C4 Output assembly runs in the fixed order unpack → bias → activation:
the unpack copies each true-height row of true-width from the working buffer
to the true output at matching offsets, the bias step then adds bias[c] to
every element of channel c's plane, and the activation is applied element-wise
to the whole true-shaped output; in particular bias 2 on the all-9 example
output gives 11 everywhere, and ReluN(limit 5) on that gives 5 everywhere. -/
theorem c4_output_assembly :
    (∀ (work out bd : ℕ → ℚ) (k : ActivationKind) (lim : ℚ) (B C H W eH eW : ℕ),
        outputAssembly work out (some bd) k lim B C H W eH eW
          = doActivation k lim (B * C * H * W)
              (biasAdd bd B C H W
                (if eH ≠ H ∨ eW ≠ W then unpackOutput work B C H W eH eW out
                 else work))) ∧
    (∀ (padOut : ℕ → ℚ) (B C H W eH eW : ℕ) (out : ℕ → ℚ) (b c h w : ℕ),
        b < B → c < C → h < H → w < W →
        unpackOutput padOut B C H W eH eW out (unpackDstOff C H W b c h + w)
          = padOut (unpackSrcOff C eH eW b c h + w)) ∧
    (∀ (bd : ℕ → ℚ) (B C H W : ℕ) (out : ℕ → ℚ) (b c i : ℕ),
        b < B → c < C → i < H * W →
        biasAdd bd B C H W out ((b * C + c) * H * W + i)
          = out ((b * C + c) * H * W + i) + bd c) ∧
    (∀ (work out bd : ℕ → ℚ) (k : ActivationKind) (lim : ℚ)
        (B C H W eH eW b c h w : ℕ),
        b < B → c < C → h < H → w < W → (eH ≠ H ∨ eW ≠ W) →
        outputAssembly work out (some bd) k lim B C H W eH eW
            (unpackDstOff C H W b c h + w)
          = applyActivation k lim
              (work (unpackSrcOff C eH eW b c h + w) + bd c)) ∧
    ((List.range 9).map
        (fun i => biasAdd (fun _ => 2) 1 1 3 3 (fun _ => 9) i)
      = List.replicate 9 11) ∧
    ((List.range 9).map
        (fun i => outputAssembly (fun _ => 9) (fun _ => 9) (some (fun _ => 2))
          .relux 5 1 1 3 3 3 3 i)
      = List.replicate 9 5) := by
  refine ⟨fun work out bd k lim B C H W eH eW => rfl,
    fun padOut B C H W eH eW out b c h w hb hc hh hw =>
      unpackOutput_element padOut B C H W eH eW out b c h w hb hc hh hw,
    fun bd B C H W out b c i hb hc hi =>
      biasAdd_element bd B C H W out b c i hb hc hi, ?_, ?_, ?_⟩
  · intro work out bd k lim B C H W eH eW b c h w hb hc hh hw hne
    have hsize : unpackDstOff C H W b c h + w < B * C * H * W := by
      rw [unpackDstOff_eq]
      exact flatIdx_lt hb hc hh hw
    have hi : h * W + w < H * W := by
      have h1 : (h + 1) * W ≤ H * W := Nat.mul_le_mul_right W hh
      have h2 : h * W + W = (h + 1) * W := by ring
      omega
    have hform : unpackDstOff C H W b c h + w = (b * C + c) * H * W + (h * W + w) := by
      unfold unpackDstOff
      ring
    have hu : unpackOutput work B C H W eH eW out (unpackDstOff C H W b c h + w)
        = work (unpackSrcOff C eH eW b c h + w) :=
      unpackOutput_element work B C H W eH eW out b c h w hb hc hh hw
    have hb2 : biasAdd bd B C H W (unpackOutput work B C H W eH eW out)
          (unpackDstOff C H W b c h + w)
        = unpackOutput work B C H W eH eW out (unpackDstOff C H W b c h + w) + bd c := by
      rw [hform]
      exact biasAdd_element bd B C H W _ b c (h * W + w) hb hc hi
    show doActivation k lim (B * C * H * W)
        (biasAdd bd B C H W
          (if eH ≠ H ∨ eW ≠ W then unpackOutput work B C H W eH eW out else work))
        (unpackDstOff C H W b c h + w)
      = applyActivation k lim (work (unpackSrcOff C eH eW b c h + w) + bd c)
    rw [if_pos hne]
    simp only [doActivation]
    rw [if_pos hsize, hb2, hu]
  · rw [List.eq_replicate_iff]
    refine ⟨by simp, ?_⟩
    intro v hv
    simp only [List.mem_map, List.mem_range] at hv
    obtain ⟨i, hi, rfl⟩ := hv
    have he := biasAdd_element (fun _ => 2) 1 1 3 3 (fun _ => 9) 0 0 i
      (by omega) (by omega) (by omega)
    have hkey : (0 * 1 + 0) * 3 * 3 + i = i := by omega
    rw [hkey] at he
    rw [he]
    norm_num
  · rw [List.eq_replicate_iff]
    refine ⟨by simp, ?_⟩
    intro v hv
    simp only [List.mem_map, List.mem_range] at hv
    obtain ⟨i, hi, rfl⟩ := hv
    show doActivation .relux 5 (1 * 1 * 3 * 3)
        (biasAdd (fun _ => 2) 1 1 3 3
          (if (3:ℕ) ≠ 3 ∨ (3:ℕ) ≠ 3 then
            unpackOutput (fun _ => 9) 1 1 3 3 3 3 (fun _ => 9)
          else (fun _ => 9))) i = 5
    rw [if_neg (by simp)]
    have he := biasAdd_element (fun _ => 2) 1 1 3 3 (fun _ => 9) 0 0 i
      (by omega) (by omega) (by omega)
    have hkey : (0 * 1 + 0) * 3 * 3 + i = i := by omega
    rw [hkey] at he
    simp only [doActivation]
    rw [if_pos (show i < 1 * 1 * 3 * 3 by omega), he]
    show applyActivation .relux 5 ((9:ℚ) + 2) = 5
    unfold applyActivation
    norm_num

/-- Witness for C4: the unpack row-copy characterization applied at batch 0,
channel 0, row 1, column 2 with true extent 3×3 and working extent 4×4. -/
theorem c4_output_assembly_witness :
    unpackOutput (fun _ => 7) 1 1 3 3 4 4 (fun _ => 0) (unpackDstOff 1 3 3 0 0 1 + 2)
      = (fun _ => (7:ℚ)) (unpackSrcOff 1 4 4 0 0 1 + 2) :=
  c4_output_assembly.2.1 (fun _ => 7) 1 1 3 3 4 4 (fun _ => 0) 0 0 1 2
    (by decide) (by decide) (by decide) (by decide)

theorem planeRowCol_decomp (eW eH plane r x : ℕ) (hr : r < eH) (hx : x < eW) :
    ((plane * (eW * eH) + r * eW + x) % eW = x) ∧
    (((plane * (eW * eH) + r * eW + x) / eW) % eH = r) ∧
    ((plane * (eW * eH) + r * eW + x) / (eW * eH) = plane) := by
  have heW : 0 < eW := lt_of_le_of_lt (Nat.zero_le x) hx
  have heH : 0 < eH := lt_of_le_of_lt (Nat.zero_le r) hr
  have hform : plane * (eW * eH) + r * eW + x = eW * (plane * eH + r) + x := by ring
  have hdiv : (plane * (eW * eH) + r * eW + x) / eW = plane * eH + r := by
    rw [hform, Nat.mul_add_div heW, Nat.div_eq_of_lt hx, Nat.add_zero]
  have hswap : plane * eH + r = eH * plane + r := by ring
  refine ⟨?_, ?_, ?_⟩
  · rw [hform, Nat.mul_add_mod, Nat.mod_eq_of_lt hx]
  · rw [hdiv, hswap, Nat.mul_add_mod, Nat.mod_eq_of_lt hr]
  · rw [← Nat.div_div_eq_div_mul, hdiv, hswap, Nat.mul_add_div heH,
      Nat.div_eq_of_lt hr, Nat.add_zero]

/-- C5 The transformed-filter cache is populated at most once per operator
instance: the first Winograd-eligible invocation computes and stores the
filter transform; a second invocation leaves the cache unchanged (no
recomputation) and reuses the stored transform, so two successive calls with
the same input produce identical outputs, and mutating the filter buffer
between the calls (the second call sees an arbitrary `f2`) does not change
the second call's result. -/
theorem c5_transformed_filter_cache :
    ∀ (transform : (ℕ → ℚ) → (ℕ → ℚ)) (wino : (ℕ → ℚ) → (ℕ → ℚ) → (ℕ → ℚ))
      (f1 f2 input : ℕ → ℚ),
      ((winogradCall transform wino false f1 input emptyTFCache).2.content
        = some (transform f1)) ∧
      ((winogradCall transform wino false f2 input
          (winogradCall transform wino false f1 input emptyTFCache).2).2
        = (winogradCall transform wino false f1 input emptyTFCache).2) ∧
      ((winogradCall transform wino false f2 input
          (winogradCall transform wino false f1 input emptyTFCache).2).1
        = (winogradCall transform wino false f1 input emptyTFCache).1) := by
  intro transform wino f1 f2 input
  exact ⟨rfl, rfl, rfl⟩

/-- C10 With a pre-transformed filter, the first invocation passes the
caller's filter buffer to the Winograd backend while resizing the
operator-owned cache without writing it; every subsequent invocation
(non-empty cache descriptor) passes the cache's never-written buffer to the
backend instead of the caller's filter data. -/
theorem c10_pretransformed_filter_cache :
    ∀ (transform : (ℕ → ℚ) → (ℕ → ℚ)) (f f2 : ℕ → ℚ),
      ((prepareWinogradFilter transform true f emptyTFCache).1 = .caller) ∧
      ((prepareWinogradFilter transform true f emptyTFCache).2
        = ⟨true, none⟩) ∧
      ((prepareWinogradFilter transform true f2
          (prepareWinogradFilter transform true f emptyTFCache).2).1
        = .cacheBuf) ∧
      (filterPtrData
          (prepareWinogradFilter transform true f2
            (prepareWinogradFilter transform true f emptyTFCache).2).1 f2
          (prepareWinogradFilter transform true f2
            (prepareWinogradFilter transform true f emptyTFCache).2).2
        = none) := by
  intro transform f f2
  exact ⟨rfl, rfl, rfl, rfl⟩

/-- C6 For every total padding amount, the leading pad is ⌊total/2⌋ and the
trailing pad is total minus that (total 3 gives leading 1, trailing 2), and
for every strategy any tiling extension beyond the originally padded extent
is added entirely to the trailing pad, leaving the leading pad unchanged. -/
theorem c6_padding_split :
    (∀ (strat : Strategy) (tile height width input_height input_width padH padW : ℕ),
      (computePads strat tile height width input_height input_width padH padW).pad_top
          = padH / 2 ∧
      (computePads strat tile height width input_height input_width padH padW).pad_left
          = padW / 2 ∧
      (computePads strat tile height width input_height input_width padH padW).pad_bottom
          = (padH - padH / 2)
            + ((computeExtraExtents strat tile height width (input_height + padH)
                (input_width + padW)).extra_input_height - (input_height + padH)) ∧
      (computePads strat tile height width input_height input_width padH padW).pad_right
          = (padW - padW / 2)
            + ((computeExtraExtents strat tile height width (input_height + padH)
                (input_width + padW)).extra_input_width - (input_width + padW))) ∧
    (computePads .generic 2 3 3 5 5 3 3).pad_top = 1 ∧
    (computePads .generic 2 3 3 5 5 3 3).pad_bottom = 2 := by
  refine ⟨?_, by decide, by decide⟩
  intro strat tile height width input_height input_width padH padW
  have hge : (computeExtraExtents strat tile height width (input_height + padH)
        (input_width + padW)).extra_input_height ≥ input_height + padH ∧
      (computeExtraExtents strat tile height width (input_height + padH)
        (input_width + padW)).extra_input_width ≥ input_width + padW := by
    cases strat <;> simp [computeExtraExtents] <;> omega
  obtain ⟨hgeH, hgeW⟩ := hge
  refine ⟨?_, ?_, ?_, ?_⟩
  · simp [computePads]
  · simp [computePads]
  · simp only [computePads]
    split_ifs <;> omega
  · simp only [computePads]
    split_ifs <;> omega

/-- C7 is refuted: a filter/input channel mismatch (input channel count 2,
filter in_channels 3) is detected only after the output tensor has been
resized and cleared, so not every precondition violation aborts before the
output tensor is modified. -/
theorem c7_counterexample :
    ¬((convSetup (some ⟨1, 2, 5, 5⟩) (some ⟨4, 3, 3, 3⟩) (some ⟨1, 4, 3, 3⟩)
        false 0 0 1 1 1 1).abort.isSome = true
      → (convSetup (some ⟨1, 2, 5, 5⟩) (some ⟨4, 3, 3, 3⟩) (some ⟨1, 4, 3, 3⟩)
          false 0 0 1 1 1 1).outputModified = false) := by
  decide

/-- C7 (amended) Null-tensor violations are detected before the output
tensor is modified, and every detected precondition violation aborts before
the compute/scratch phase is reached; the channel-mismatch and
batch-mismatch checks, however, run only after the output tensor has been
resized and cleared. -/
theorem c7_amended_checks :
    ∀ (input filter output : Option Tensor4) (is_tr : Bool)
      (padH padW dh dw sh sw : ℕ),
      ((convSetup input filter output is_tr padH padW dh dw sh sw).abort.isSome →
        (convSetup input filter output is_tr padH padW dh dw sh sw).computeReached
          = false) ∧
      (((convSetup input filter output is_tr padH padW dh dw sh sw).abort
            = some .nullInput ∨
        (convSetup input filter output is_tr padH padW dh dw sh sw).abort
            = some .nullFilter ∨
        (convSetup input filter output is_tr padH padW dh dw sh sw).abort
            = some .nullOutput) →
        (convSetup input filter output is_tr padH padW dh dw sh sw).outputModified
          = false) := by
  intro input filter output is_tr padH padW dh dw sh sw
  cases input <;> cases filter <;> cases output <;>
    simp [convSetup] <;> split_ifs <;> simp

/-- Witness for C7 (amended): a null input aborts with the output tensor
untouched. -/
theorem c7_amended_checks_witness :
    ((convSetup none none none false 0 0 1 1 1 1).abort = some .nullInput ∨
     (convSetup none none none false 0 0 1 1 1 1).abort = some .nullFilter ∨
     (convSetup none none none false 0 0 1 1 1 1).abort = some .nullOutput) ∧
    (convSetup none none none false 0 0 1 1 1 1).outputModified = false :=
  ⟨Or.inl (by decide),
    (c7_amended_checks none none none false 0 0 1 1 1 1).2 (Or.inl (by decide))⟩

/-- C8 With explicit total pad amounts, the resolved output shape is
[batch, filter out_channels, out_h, out_w] where each spatial extent equals
floor((in + pad − dilation·(filter − 1) − 1)/stride) + 1. -/
theorem c8_output_shape :
    ∀ (inp flt outT : Tensor4) (padH padW dh dw sh sw : ℕ),
      (convSetup (some inp) (some flt) (some outT) false
          padH padW dh dw sh sw).resizedShape
        = some [inp.dim0, flt.dim0,
            calcOutExtent inp.dim2 padH flt.dim2 dh sh,
            calcOutExtent inp.dim3 padW flt.dim3 dw sw] ∧
      calcOutExtent inp.dim2 padH flt.dim2 dh sh
        = (inp.dim2 + padH - dh * (flt.dim2 - 1) - 1) / sh + 1 := by
  intro inp flt outT padH padW dh dw sh sw
  constructor
  · simp only [convSetup]
    split_ifs <;> simp_all
  · rfl

/-- C9 is refuted: with input extent 5, total pad 2 and no tiling extension,
the extended input extent 7 equals the original padded extent 5 + 2, yet the
materializer still runs (a padded copy is made), because the dispatch
compares against the original unpadded input extent. -/
theorem c9_counterexample :
    ¬(selectPadInput 7 7 5 5 = .originalInput ↔ (7 = 5 + 2 ∧ 7 = 5 + 2)) := by
  decide

/-- C9 (amended) The padding materializer is skipped — the original input
buffer passed directly to the compute strategy, no copy made — iff the
extended input extent equals the original (unpadded) input extent in both
dimensions, i.e. iff the pads are zero and the strategy performs no
extension; otherwise a zero-filled buffer of the extended extent is built
with each original row copied to its offset position (and zeros in the pad
region). -/
theorem c9_amended_materializer :
    (∀ (eh ew ih iw : ℕ),
      selectPadInput eh ew ih iw = .originalInput ↔ (eh = ih ∧ ew = iw)) ∧
    (∀ (input : ℕ → ℚ) (iH iW pt pb pl pr plane y x : ℕ), y < iH → x < iW →
      constructPaddedInput input iH iW pt pb pl pr
          (plane * ((iW + pl + pr) * (iH + pt + pb))
            + (pt + y) * (iW + pl + pr) + (pl + x))
        = input (plane * iH * iW + y * iW + x)) ∧
    (∀ (input : ℕ → ℚ) (iH iW pt pb pl pr plane y x : ℕ), y < iH → x < pl →
      constructPaddedInput input iH iW pt pb pl pr
          (plane * ((iW + pl + pr) * (iH + pt + pb))
            + (pt + y) * (iW + pl + pr) + x)
        = 0) := by
  refine ⟨?_, ?_, ?_⟩
  · intro eh ew ih iw
    unfold selectPadInput
    split_ifs with h
    · simp only [reduceCtorEq, false_iff]
      intro hc
      rcases h with h | h
      · exact h hc.1
      · exact h hc.2
    · push_neg at h
      simp [h.1, h.2]
  · intro input iH iW pt pb pl pr plane y x hy hx
    have hxlt : pl + x < iW + pl + pr := by omega
    have hylt : pt + y < iH + pt + pb := by omega
    obtain ⟨hmod, hrow, hplane⟩ := planeRowCol_decomp (iW + pl + pr) (iH + pt + pb)
      plane (pt + y) (pl + x) hylt hxlt
    simp only [constructPaddedInput]
    rw [hmod, hrow, hplane]
    rw [if_pos (by omega : pt ≤ pt + y ∧ pt + y < pt + iH ∧ pl ≤ pl + x
      ∧ pl + x < pl + iW)]
    have hyy : pt + y - pt = y := by omega
    have hxx : pl + x - pl = x := by omega
    rw [hyy, hxx]
  · intro input iH iW pt pb pl pr plane y x hy hx
    have hxlt : x < iW + pl + pr := by omega
    have hylt : pt + y < iH + pt + pb := by omega
    obtain ⟨hmod, hrow, hplane⟩ := planeRowCol_decomp (iW + pl + pr) (iH + pt + pb)
      plane (pt + y) x hylt hxlt
    simp only [constructPaddedInput]
    rw [hmod, hrow, hplane]
    rw [if_neg]
    intro hc
    omega

/-- Witness for C9 (amended): skip iff extents match at 5 = 5, and the
interior copy at plane 0, row 0, column 0 of a 2×2 input with pads 1. -/
theorem c9_amended_materializer_witness :
    (selectPadInput 5 5 5 5 = .originalInput ↔ ((5:ℕ) = 5 ∧ (5:ℕ) = 5)) ∧
    constructPaddedInput (fun _ => 3) 2 2 1 1 1 1
        (0 * ((2 + 1 + 1) * (2 + 1 + 1)) + (1 + 0) * (2 + 1 + 1) + (1 + 0))
      = (fun _ => (3:ℚ)) (0 * 2 * 2 + 0 * 2 + 0) :=
  ⟨c9_amended_materializer.1 5 5 5 5,
    c9_amended_materializer.2.1 (fun _ => 3) 2 2 1 1 1 1 0 0 0
      (by decide) (by decide)⟩
